import Mathlib

/-!
# RSA core arithmetic of Botan (`src/pubkey/rsa/rsa.h`)

A shallow embedding of the RSA public and private operations.  `BigInt` is the
library's signed arbitrary-precision integer; it is embedded as `Int`.  Octet
buffers (`byte[]` with a length, `SecureVector<byte>`) are lists of octets.
C++ exceptions are the error side of `Except`.

Code that `rsa.h` only declares or uses, and whose definition lives in another
file of the repository, is modelled from the specification; every such
definition says so in its documentation.
-/

namespace Botan

/-- Signed arbitrary-precision integer (`BigInt`). -/
abbrev BigInt := Int

/-- One octet. -/
abbrev byte := Fin 256

/-- Octet buffer (`SecureVector<byte>`, and `const byte[]` with its length). -/
abbrev SecureVector := List byte

/-- Exceptions raised by the operations.  `Invalid_Argument` is what the
specification calls `InvalidInput`. -/
inductive Exception where
  | Invalid_Argument (what : String)
  | Encoding_Error (what : String)
  | InconsistentKey (what : String)
  | GenerationFailed (what : String)
  deriving DecidableEq, Repr

deriving instance DecidableEq for Except

/-- The random source handed to the operations: a stream of octets. -/
structure RandomNumberGenerator where
  stream : List byte
  deriving DecidableEq, Repr

/-! ## Big-integer helpers -/

/-- Number of halvings that bring `x` to zero, at most `fuel` of them. -/
def bitLength : Nat → Nat → Nat
  | 0, _ => 0
  | fuel + 1, x => if x = 0 then 0 else bitLength fuel (x / 2) + 1

/-- Modelled from the spec: `BigInt::bits` (declared in bigint.h, which the
header only includes), the bit-length query of the big-integer library: the
number of significant bits of the magnitude, `0` for zero. -/
def BigInt.bits (n : BigInt) : Nat := bitLength n.natAbs n.natAbs

/-- Modelled from the spec: `BigInt::bytes`, the byte length of the magnitude:
the bit length rounded up to whole octets. -/
def BigInt.bytes (n : BigInt) : Nat := (BigInt.bits n + 7) / 8

/-- Modelled from the spec: the constructor `BigInt(const byte[], u32bit)`:
the buffer read as a big-endian unsigned integer. -/
def BigInt.decode (buf : SecureVector) : BigInt :=
  buf.foldl (fun acc b => acc * 256 + (b.val : Int)) 0

/-- The `len` low-order octets of `x`, most significant first. -/
def bigEndian : Nat → Nat → SecureVector
  | 0, _ => []
  | len + 1, x => bigEndian len (x / 256) ++ [Fin.ofNat (x % 256)]

/-- Modelled from the spec: `BigInt::encode` with a value as its only
argument: the big-endian octets of the magnitude.  It receives no length, so
there is nothing it could pad to: it yields exactly `bytes` octets. -/
def BigInt.encode (x : BigInt) : SecureVector :=
  bigEndian (BigInt.bytes x) x.natAbs

/-- Modelled from the spec: `BigInt::encode_1363`: the big-endian encoding of
fixed length `bytes`, left-padded with zero octets; a value that needs more
than `bytes` octets cannot be encoded. -/
def BigInt.encode_1363 (x : BigInt) (bytes : Nat) : Except Exception SecureVector :=
  if BigInt.bytes x > bytes then
    throw (Exception.Encoding_Error "encode_1363: n is too large to encode properly")
  else
    pure (List.replicate (bytes - BigInt.bytes x) (0 : byte) ++ BigInt.encode x)

/-! ## Precomputed contexts -/

/-- Modelled from the spec: `Fixed_Exponent_Power_Mod` (the spec's
ModularExponentiator, §4.1): a context pairing a fixed exponent and modulus. -/
structure Fixed_Exponent_Power_Mod where
  exponent : BigInt
  modulus : BigInt
  deriving DecidableEq, Repr

/-- Modelled from the spec: applying the exponentiator to a base returns
`base^exponent mod modulus` and requires `0 ≤ base`; a negative base is an
invalid input (§7).  Exponents are unsigned in the data model (§3), so the
exponent is read as a natural number. -/
def Fixed_Exponent_Power_Mod.apply (pm : Fixed_Exponent_Power_Mod) (base : BigInt) :
    Except Exception BigInt :=
  if base < 0 then
    throw (Exception.Invalid_Argument "Power_Mod: base must be non-negative")
  else
    pure (base ^ pm.exponent.toNat % pm.modulus)

/-- Modelled from the spec: `Modular_Reducer` (the spec's ModularReducer,
§4.2): a context for reduction modulo a fixed modulus. -/
structure Modular_Reducer where
  modulus : BigInt
  deriving DecidableEq, Repr

/-- Modelled from the spec: `reduce(x)` returns `x mod modulus` for any
integer `x`, negative ones included, normalised into `[0, modulus)`. -/
def Modular_Reducer.reduce (r : Modular_Reducer) (x : BigInt) : BigInt :=
  x % r.modulus

/-! ## Keys -/

/-- The public key material `{N, E}` held by `RSA_PublicKey`. -/
structure RSA_PublicKey where
  n : BigInt
  e : BigInt
  deriving DecidableEq, Repr

/-- Accessor `get_n`. -/
def RSA_PublicKey.get_n (rsa : RSA_PublicKey) : BigInt := rsa.n

/-- Accessor `get_e`. -/
def RSA_PublicKey.get_e (rsa : RSA_PublicKey) : BigInt := rsa.e

/-- The private key material held by `RSA_PrivateKey`: the public part, the
primes `p`, `q`, the private exponent `d` and the CRT parameters `d1`, `d2`
and `c` (the spec's QInv). -/
structure RSA_PrivateKey where
  n : BigInt
  e : BigInt
  d : BigInt
  p : BigInt
  q : BigInt
  d1 : BigInt
  d2 : BigInt
  c : BigInt
  deriving DecidableEq, Repr

/-- The public key contained in a private key (`RSA_PrivateKey` derives from
`RSA_PublicKey`). -/
def RSA_PrivateKey.toPublic (rsa : RSA_PrivateKey) : RSA_PublicKey :=
  { n := rsa.n, e := rsa.e }

/-! ## The public operation -/

/-- State of `RSA_Public_Operation`: the modulus and the cached exponentiator. -/
structure RSA_Public_Operation where
  n : BigInt
  powermod_e_n : Fixed_Exponent_Power_Mod
  deriving DecidableEq, Repr

/-- Constructor `RSA_Public_Operation(const RSA_PublicKey& rsa)`. -/
def RSA_Public_Operation.new (rsa : RSA_PublicKey) : RSA_Public_Operation :=
  { n := rsa.get_n, powermod_e_n := { exponent := rsa.get_e, modulus := rsa.get_n } }

/-- Member `max_input_bits`: `n.bits() - 1` in unsigned 32-bit arithmetic. -/
def RSA_Public_Operation.max_input_bits (op : RSA_Public_Operation) : Nat :=
  (BigInt.bits op.n + 2 ^ 32 - 1) % 2 ^ 32

/-- Member `with_recovery`. -/
def RSA_Public_Operation.with_recovery (_op : RSA_Public_Operation) : Bool := true

/-- Member `public_op`: rejects `m >= n`, otherwise applies the exponentiator. -/
def RSA_Public_Operation.public_op (op : RSA_Public_Operation) (m : BigInt) :
    Except Exception BigInt :=
  if m ≥ op.n then
    throw (Exception.Invalid_Argument "RSA public op - input is too large")
  else
    op.powermod_e_n.apply m

/-- Member `encrypt`: decode the buffer, apply `public_op`, encode to the byte
length of the modulus.  The random source is not used. -/
def RSA_Public_Operation.encrypt (op : RSA_Public_Operation) (msg : SecureVector)
    (_rng : RandomNumberGenerator) : Except Exception SecureVector := do
  let m := BigInt.decode msg
  let r ← op.public_op m
  BigInt.encode_1363 r (BigInt.bytes op.n)

/-- Member `verify_mr`: decode the buffer, apply `public_op`, encode the value. -/
def RSA_Public_Operation.verify_mr (op : RSA_Public_Operation) (msg : SecureVector) :
    Except Exception SecureVector := do
  let m := BigInt.decode msg
  let r ← op.public_op m
  pure (BigInt.encode r)

/-! ## Calls as steps on the operation object -/

/-- State of `RSA_Private_Operation`, as declared in `rsa.h`: the modulus, the
prime `q`, the CRT coefficient `c`, the two exponentiators and the reducer
modulo `p`.  (The declared member `n_bits` is never read in `rsa.h`.) -/
structure RSA_Private_Operation where
  n : BigInt
  q : BigInt
  c : BigInt
  powermod_d1_p : Fixed_Exponent_Power_Mod
  powermod_d2_q : Fixed_Exponent_Power_Mod
  mod_p : Modular_Reducer
  deriving DecidableEq, Repr

/-- Modelled from the spec: the constructor
`RSA_Private_Operation(const RSA_PrivateKey&)` (defined in rsa.cpp; rsa.h only
declares it): the exponentiators are built from `(D1, P)`
and `(D2, Q)`, the reducer from `P` (§4.4). -/
def RSA_Private_Operation.new (rsa : RSA_PrivateKey) : RSA_Private_Operation :=
  { n := rsa.n, q := rsa.q, c := rsa.c
    powermod_d1_p := { exponent := rsa.d1, modulus := rsa.p }
    powermod_d2_q := { exponent := rsa.d2, modulus := rsa.q }
    mod_p := { modulus := rsa.p } }

/-- Member `max_input_bits`: `n.bits() - 1` in unsigned 32-bit arithmetic. -/
def RSA_Private_Operation.max_input_bits (op : RSA_Private_Operation) : Nat :=
  (BigInt.bits op.n + 2 ^ 32 - 1) % 2 ^ 32

/-- Modelled from the spec: `RSA_Private_Operation::private_op` (defined in
rsa.cpp; rsa.h only declares it), §4.4: precondition
`0 ≤ m < N`, an input `≥ N` or negative being an invalid input (§7); then
`j1 = m^D1 mod P`, `j2 = m^D2 mod Q`, `h = ((j1 − j2)·QInv) mod P` and the
result `j2 + h·Q`. -/
def RSA_Private_Operation.private_op (op : RSA_Private_Operation) (m : BigInt) :
    Except Exception BigInt :=
  if m ≥ op.n then
    throw (Exception.Invalid_Argument "RSA private op - input is too large")
  else do
    let j1 ← op.powermod_d1_p.apply m
    let j2 ← op.powermod_d2_q.apply m
    let h := op.mod_p.reduce ((j1 - j2) * op.c)
    pure (j2 + h * op.q)

/-! ## Key validation -/

/-- A key whose only defect is a zero modulus: `P = 3`, `Q = 5`, `E = D = 3`
(so `E·D = 9 ≡ 1 mod lcm(2, 4)`), but `N = 0` instead of `15`. -/
def zeroModulusKey : RSA_PrivateKey :=
  { n := 0, e := 3, d := 3, p := 3, q := 5, d1 := 1, d2 := 3, c := 2 }

/-- The toy key of the concrete vector: `P = 61`, `Q = 53`, `N = 3233`,
`E = 17`, `D = 2753`. -/
def toyKey : RSA_PrivateKey :=
  { n := 3233, e := 17, d := 2753, p := 61, q := 53
    d1 := 2753 % 60, d2 := 2753 % 52, c := 38 }

/-- A valid key: `N = P·Q` with `P`, `Q` distinct odd primes,
`E·D ≡ 1 (mod lcm(P−1, Q−1))`, `D1 = D mod (P−1)`, `D2 = D mod (Q−1)` and
`QInv·Q ≡ 1 (mod P)`; the exponents are unsigned. -/
structure RSA_PrivateKey.Valid (rsa : RSA_PrivateKey) : Prop where
  p_prime : Nat.Prime rsa.p.toNat
  q_prime : Nat.Prime rsa.q.toNat
  p_odd : rsa.p % 2 = 1
  q_odd : rsa.q % 2 = 1
  distinct : rsa.p ≠ rsa.q
  modulus : rsa.n = rsa.p * rsa.q
  e_nonneg : 0 ≤ rsa.e
  d_nonneg : 0 ≤ rsa.d
  inverse : rsa.e * rsa.d ≡ 1 [ZMOD (Int.lcm (rsa.p - 1) (rsa.q - 1) : ℤ)]
  d1_eq : rsa.d1 = rsa.d % (rsa.p - 1)
  d2_eq : rsa.d2 = rsa.d % (rsa.q - 1)
  c_inv : rsa.c * rsa.q ≡ 1 [ZMOD rsa.p]

/-! ## Evaluation lemmas -/

theorem apply_of_nonneg (pm : Fixed_Exponent_Power_Mod) (base : BigInt) (h : 0 ≤ base) :
    pm.apply base = .ok (base ^ pm.exponent.toNat % pm.modulus) := by
  unfold Fixed_Exponent_Power_Mod.apply
  rw [if_neg (not_lt.mpr h)]
  rfl

theorem public_op_of_lt (rsa : RSA_PublicKey) (m : BigInt) (h0 : 0 ≤ m) (h1 : m < rsa.n) :
    (RSA_Public_Operation.new rsa).public_op m = .ok (m ^ rsa.e.toNat % rsa.n) := by
  unfold RSA_Public_Operation.public_op
  rw [if_neg (by simpa [RSA_Public_Operation.new, RSA_PublicKey.get_n] using h1)]
  exact apply_of_nonneg _ m h0

theorem public_op_of_ge (rsa : RSA_PublicKey) (m : BigInt) (h : rsa.n ≤ m) :
    (RSA_Public_Operation.new rsa).public_op m
      = .error (Exception.Invalid_Argument "RSA public op - input is too large") := by
  unfold RSA_Public_Operation.public_op
  rw [if_pos (by simpa [RSA_Public_Operation.new, RSA_PublicKey.get_n] using h)]
  rfl

/-! ## Bit lengths -/

theorem bitLength_le_iff (fuel : Nat) : ∀ x k : Nat, x ≤ fuel →
    (bitLength fuel x ≤ k ↔ x < 2 ^ k) := by
  induction fuel with
  | zero =>
    intro x k hx
    have hx0 : x = 0 := Nat.le_zero.mp hx
    subst hx0
    simp [bitLength]
  | succ f ih =>
    intro x k hx
    unfold bitLength
    by_cases h0 : x = 0
    · subst h0
      simp
    · rw [if_neg h0]
      cases k with
      | zero =>
        simp only [pow_zero, Nat.lt_one_iff]
        constructor
        · intro h
          omega
        · intro h
          exact absurd h h0
      | succ k =>
        have hhalf : x / 2 ≤ f := by omega
        rw [Nat.succ_le_succ_iff, ih (x / 2) k hhalf, pow_succ]
        exact Nat.div_lt_iff_lt_mul (by norm_num)

theorem bits_le_iff (n : BigInt) (k : Nat) : BigInt.bits n ≤ k ↔ n.natAbs < 2 ^ k :=
  bitLength_le_iff n.natAbs n.natAbs k le_rfl

theorem lt_two_pow_bits (n : BigInt) : n.natAbs < 2 ^ BigInt.bits n :=
  (bits_le_iff n _).mp le_rfl

theorem bits_pos (n : BigInt) (h : n ≠ 0) : 1 ≤ BigInt.bits n := by
  by_contra hlt
  have h0 : BigInt.bits n ≤ 0 := by omega
  have := (bits_le_iff n 0).mp h0
  simp at this
  exact h this

theorem two_pow_pred_bits_le (n : BigInt) (h : n ≠ 0) : 2 ^ (BigInt.bits n - 1) ≤ n.natAbs := by
  by_contra hlt
  have h1 := (bits_le_iff n (BigInt.bits n - 1)).mpr (not_le.mp hlt)
  have := bits_pos n h
  omega

theorem bits_mono (a b : BigInt) (h : a.natAbs ≤ b.natAbs) : BigInt.bits a ≤ BigInt.bits b :=
  (bits_le_iff a _).mpr (lt_of_le_of_lt h (lt_two_pow_bits b))

theorem bytes_mono (a b : BigInt) (h : a.natAbs ≤ b.natAbs) : BigInt.bytes a ≤ BigInt.bytes b := by
  unfold BigInt.bytes
  have := bits_mono a b h
  omega

theorem u32_pred_le (b : Nat) (hb : 1 ≤ b) : (b + 2 ^ 32 - 1) % 2 ^ 32 ≤ b - 1 := by
  have h : b + 2 ^ 32 - 1 = (b - 1) + 2 ^ 32 := by omega
  rw [h, Nat.add_mod_right]
  exact Nat.mod_le _ _

theorem u32_pred_eq (b : Nat) (hb : 1 ≤ b) (h32 : b < 2 ^ 32) :
    (b + 2 ^ 32 - 1) % 2 ^ 32 = b - 1 := by
  have h : b + 2 ^ 32 - 1 = (b - 1) + 2 ^ 32 := by omega
  rw [h, Nat.add_mod_right]
  exact Nat.mod_eq_of_lt (by omega)


/-! ## Number theory behind the operations -/

theorem pow_mod_pred_modEq (P : ℕ) (hP : P.Prime) (a : ℤ) (k : ℕ) (hk : k % (P - 1) ≠ 0) :
    a ^ (k % (P - 1)) ≡ a ^ k [ZMOD (P : ℤ)] := by
  haveI := Fact.mk hP
  rw [← ZMod.intCast_eq_intCast_iff]
  push_cast
  by_cases ha : (a : ZMod P) = 0
  · have hk0 : k ≠ 0 := by
      intro h
      simp [h] at hk
    rw [ha, zero_pow hk, zero_pow hk0]
  · conv_rhs =>
      rw [← Nat.div_add_mod k (P - 1), pow_add, pow_mul, ZMod.pow_card_sub_one_eq_one ha,
        one_pow, one_mul]

theorem pow_modEq_self (P : ℕ) (hP : P.Prime) (h3 : 3 ≤ P) (a : ℤ) (t : ℕ)
    (ht : t ≡ 1 [MOD P - 1]) : a ^ t ≡ a [ZMOD (P : ℤ)] := by
  have h1 : t % (P - 1) = 1 := by
    have h := ht
    unfold Nat.ModEq at h
    rw [h]
    exact Nat.mod_eq_of_lt (by omega)
  have h := pow_mod_pred_modEq P hP a t (by rw [h1]; exact one_ne_zero)
  rw [h1, pow_one] at h
  exact h.symm

theorem crt_core (P Q : ℕ) (hP : P.Prime) (hQ : Q.Prime) (hPQ : P ≠ Q) (c j1 j2 x : ℤ)
    (hc : c * Q ≡ 1 [ZMOD (P : ℤ)]) (h1 : j1 ≡ x [ZMOD (P : ℤ)]) (h2 : j2 ≡ x [ZMOD (Q : ℤ)])
    (hj2 : 0 ≤ j2) (hj2' : j2 < Q) :
    j2 + ((j1 - j2) * c % P) * Q = x % ((P : ℤ) * Q) := by
  have hPpos : (0 : ℤ) < P := by exact_mod_cast hP.pos
  have hQpos : (0 : ℤ) < Q := by exact_mod_cast hQ.pos
  set h := (j1 - j2) * c % (P : ℤ) with hh
  have hh0 : 0 ≤ h := Int.emod_nonneg _ hPpos.ne'
  have hh1 : h < P := Int.emod_lt_of_pos _ hPpos
  have hr0 : 0 ≤ j2 + h * Q := by positivity
  have hr1 : j2 + h * Q < (P : ℤ) * Q := by nlinarith
  have hmQ : j2 + h * Q ≡ x [ZMOD (Q : ℤ)] := by
    have : j2 + h * Q ≡ j2 + h * 0 [ZMOD (Q : ℤ)] :=
      Int.ModEq.add_left _ (Int.ModEq.mul_left _ (by simp [Int.ModEq]))
    simpa using this.trans (by simpa using h2)
  have hmP : j2 + h * Q ≡ x [ZMOD (P : ℤ)] := by
    have e1 : h ≡ (j1 - j2) * c [ZMOD (P : ℤ)] := Int.mod_modEq _ _
    have e2 : j2 + h * Q ≡ j2 + (j1 - j2) * c * Q [ZMOD (P : ℤ)] :=
      Int.ModEq.add_left _ (Int.ModEq.mul_right _ e1)
    have e3 : (j1 - j2) * c * Q ≡ (j1 - j2) * 1 [ZMOD (P : ℤ)] := by
      rw [mul_assoc]
      exact Int.ModEq.mul_left _ hc
    have e4 : j2 + (j1 - j2) * c * Q ≡ j2 + (j1 - j2) * 1 [ZMOD (P : ℤ)] :=
      Int.ModEq.add_left _ e3
    have e5 : j2 + (j1 - j2) * 1 = j1 := by ring
    rw [e5] at e4
    exact (e2.trans e4).trans h1
  have hcop : (P : ℤ).natAbs.Coprime (Q : ℤ).natAbs := by
    simpa using (Nat.coprime_primes hP hQ).mpr hPQ
  have hm : j2 + h * Q ≡ x [ZMOD (P : ℤ) * Q] :=
    (Int.modEq_and_modEq_iff_modEq_mul hcop).mp ⟨hmP, hmQ⟩
  have := hm
  unfold Int.ModEq at this
  rw [← this]
  exact (Int.emod_eq_of_lt hr0 hr1).symm

theorem pred_mod_ne_zero (P t D : ℕ) (h3 : 3 ≤ P) (ht : t * D ≡ 1 [MOD P - 1]) :
    D % (P - 1) ≠ 0 := by
  intro h0
  have hdvd : (P - 1) ∣ t * D := Dvd.dvd.mul_left (Nat.dvd_of_mod_eq_zero h0) t
  have h1 : (t * D) % (P - 1) = 1 := by
    have h := ht
    unfold Nat.ModEq at h
    rw [h]
    exact Nat.mod_eq_of_lt (by omega)
  rw [Nat.mod_eq_zero_of_dvd hdvd] at h1
  exact absurd h1 (by norm_num)

/-- The facts about a valid key, over the natural numbers. -/
theorem RSA_PrivateKey.Valid.nat_form {rsa : RSA_PrivateKey} (hv : rsa.Valid) :
    ∃ P Q E D : ℕ, rsa.p = P ∧ rsa.q = Q ∧ rsa.e = E ∧ rsa.d = D ∧ rsa.n = (P : ℤ) * Q ∧
      P.Prime ∧ Q.Prime ∧ 3 ≤ P ∧ 3 ≤ Q ∧ P ≠ Q ∧
      E * D ≡ 1 [MOD P - 1] ∧ E * D ≡ 1 [MOD Q - 1] ∧
      rsa.d1 = ((D % (P - 1) : ℕ) : ℤ) ∧ rsa.d2 = ((D % (Q - 1) : ℕ) : ℤ) := by
  obtain ⟨n, e, d, p, q, d1, d2, c⟩ := rsa
  obtain ⟨hp, hq, hpo, hqo, hpq, hn, he, hd, hed, hd1, hd2, hc⟩ := hv
  simp only at hp hq hpo hqo hpq hn he hd hed hd1 hd2 hc
  have hp0 : 0 ≤ p := by
    by_contra h
    rw [Int.toNat_eq_zero.mpr (le_of_lt (not_le.mp h))] at hp
    exact Nat.not_prime_zero hp
  have hq0 : 0 ≤ q := by
    by_contra h
    rw [Int.toNat_eq_zero.mpr (le_of_lt (not_le.mp h))] at hq
    exact Nat.not_prime_zero hq
  lift p to ℕ using hp0
  lift q to ℕ using hq0
  lift e to ℕ using he
  lift d to ℕ using hd
  rw [Int.toNat_natCast] at hp hq
  have hp2 := hp.two_le
  have hq2 := hq.two_le
  have hpo' : ((p : ℕ) : ℤ) % 2 = 1 := hpo
  have hqo' : ((q : ℕ) : ℤ) % 2 = 1 := hqo
  have hp3 : 3 ≤ p := by omega
  have hq3 : 3 ≤ q := by omega
  have hpc : ((p : ℤ) - 1) = ((p - 1 : ℕ) : ℤ) := by
    rw [Nat.cast_sub (by omega)]
    simp
  have hqc : ((q : ℤ) - 1) = ((q - 1 : ℕ) : ℤ) := by
    rw [Nat.cast_sub (by omega)]
    simp
  rw [hpc] at hd1
  rw [hqc] at hd2
  rw [hpc, hqc, Int.lcm] at hed
  simp only [Int.natAbs_ofNat] at hed
  have hed' : e * d ≡ 1 [MOD Nat.lcm (p - 1) (q - 1)] := by
    apply Int.natCast_modEq_iff.mp
    push_cast
    exact hed
  refine ⟨p, q, e, d, rfl, rfl, rfl, rfl, hn, hp, hq, hp3, hq3, ?_,
    hed'.of_dvd (Nat.dvd_lcm_left _ _), hed'.of_dvd (Nat.dvd_lcm_right _ _), ?_, ?_⟩
  · intro h
    exact hpq (by rw [h])
  · rw [hd1]
    norm_cast
  · rw [hd2]
    norm_cast

/-- The private operation on a valid key returns `m^D mod N`. -/
theorem private_op_value (rsa : RSA_PrivateKey) (hv : rsa.Valid) (m : BigInt)
    (h0 : 0 ≤ m) (h1 : m < rsa.n) :
    (RSA_Private_Operation.new rsa).private_op m = .ok (m ^ rsa.d.toNat % rsa.n) := by
  obtain ⟨P, Q, E, D, hp, hq, he, hd, hn, hP, hQ, hP3, hQ3, hPQ, hedP, hedQ, hd1, hd2⟩ :=
    hv.nat_form
  have hc := hv.c_inv
  unfold RSA_Private_Operation.private_op
  rw [if_neg (by simpa [RSA_Private_Operation.new] using h1)]
  rw [apply_of_nonneg _ m h0, apply_of_nonneg _ m h0]
  simp only [RSA_Private_Operation.new, Modular_Reducer.reduce, bind, Except.bind, pure,
    Except.pure]
  rw [hd1, hd2, hd, hn, hp, hq, Int.toNat_natCast, Int.toNat_natCast, Int.toNat_natCast]
  rw [hp, hq] at hc
  have hj1 : m ^ (D % (P - 1)) % (P : ℤ) ≡ m ^ D [ZMOD (P : ℤ)] :=
    (Int.mod_modEq _ _).trans
      (pow_mod_pred_modEq P hP m D (pred_mod_ne_zero P E D hP3 hedP))
  have hj2 : m ^ (D % (Q - 1)) % (Q : ℤ) ≡ m ^ D [ZMOD (Q : ℤ)] :=
    (Int.mod_modEq _ _).trans
      (pow_mod_pred_modEq Q hQ m D (pred_mod_ne_zero Q E D hQ3 hedQ))
  have hQpos : (0 : ℤ) < Q := by exact_mod_cast hQ.pos
  rw [crt_core P Q hP hQ hPQ rsa.c _ _ (m ^ D) hc hj1 hj2
    (Int.emod_nonneg _ hQpos.ne') (Int.emod_lt_of_pos _ hQpos)]


theorem modEq_mul_of_primes (P Q : ℕ) (hP : P.Prime) (hQ : Q.Prime) (hPQ : P ≠ Q) (a b : ℤ)
    (h1 : a ≡ b [ZMOD (P : ℤ)]) (h2 : a ≡ b [ZMOD (Q : ℤ)]) : a ≡ b [ZMOD (P : ℤ) * Q] := by
  have hcop : (P : ℤ).natAbs.Coprime (Q : ℤ).natAbs := by
    simpa using (Nat.coprime_primes hP hQ).mpr hPQ
  exact (Int.modEq_and_modEq_iff_modEq_mul hcop).mp ⟨h1, h2⟩

/-- Raising to `a` and then to `b` modulo `P·Q` is the identity on `[0, P·Q)`
when `a·b ≡ 1` modulo `P − 1` and `Q − 1`. -/
theorem pow_pow_mod_inverse (P Q a b : ℕ) (hP : P.Prime) (hQ : Q.Prime) (hPQ : P ≠ Q)
    (hP3 : 3 ≤ P) (hQ3 : 3 ≤ Q) (habP : a * b ≡ 1 [MOD P - 1]) (habQ : a * b ≡ 1 [MOD Q - 1])
    (m : ℤ) (h0 : 0 ≤ m) (h1 : m < (P : ℤ) * Q) :
    (m ^ a % ((P : ℤ) * Q)) ^ b % ((P : ℤ) * Q) = m := by
  have e1 : (m ^ a % ((P : ℤ) * Q)) ^ b ≡ m ^ (a * b) [ZMOD (P : ℤ) * Q] := by
    rw [pow_mul]
    exact (Int.mod_modEq _ _).pow b
  have e2 : m ^ (a * b) ≡ m [ZMOD (P : ℤ) * Q] :=
    modEq_mul_of_primes P Q hP hQ hPQ _ _ (pow_modEq_self P hP hP3 m _ habP)
      (pow_modEq_self Q hQ hQ3 m _ habQ)
  have e3 := e1.trans e2
  unfold Int.ModEq at e3
  rw [e3]
  exact Int.emod_eq_of_lt h0 h1

theorem private_op_of_ge (rsa : RSA_PrivateKey) (m : BigInt) (h : rsa.n ≤ m) :
    (RSA_Private_Operation.new rsa).private_op m
      = .error (Exception.Invalid_Argument "RSA private op - input is too large") := by
  unfold RSA_Private_Operation.private_op
  rw [if_pos (by simpa [RSA_Private_Operation.new] using h)]
  rfl

theorem toyKey_valid : toyKey.Valid :=
  { p_prime := by decide
    q_prime := by decide
    p_odd := by decide
    q_odd := by decide
    distinct := by decide
    modulus := by decide
    e_nonneg := by decide
    d_nonneg := by decide
    inverse := by decide
    d1_eq := by decide
    d2_eq := by decide
    c_inv := by decide }


/-! ## Octet codec -/

theorem foldl_decode_nonneg (buf : SecureVector) : ∀ acc : ℤ, 0 ≤ acc →
    0 ≤ buf.foldl (fun acc b => acc * 256 + (b.val : ℤ)) acc := by
  induction buf with
  | nil =>
    intro acc h
    exact h
  | cons b bs ih =>
    intro acc h
    rw [List.foldl_cons]
    apply ih
    have hb : (0 : ℤ) ≤ (b.val : ℤ) := Int.natCast_nonneg _
    nlinarith

theorem decode_nonneg (buf : SecureVector) : 0 ≤ BigInt.decode buf :=
  foldl_decode_nonneg buf 0 le_rfl

theorem bigEndian_length (len : Nat) : ∀ x : Nat, (bigEndian len x).length = len := by
  induction len with
  | zero =>
    intro x
    rfl
  | succ k ih =>
    intro x
    simp [bigEndian, ih]

theorem encode_length (x : BigInt) : (BigInt.encode x).length = BigInt.bytes x :=
  bigEndian_length _ _

theorem natAbs_le_of_nonneg_of_lt (r n : ℤ) (h0 : 0 ≤ r) (h1 : r < n) :
    r.natAbs ≤ n.natAbs := by
  omega

theorem encode_1363_of_le (x : BigInt) (len : Nat) (h : BigInt.bytes x ≤ len) :
    BigInt.encode_1363 x len
      = .ok (List.replicate (len - BigInt.bytes x) (0 : byte) ++ BigInt.encode x) := by
  unfold BigInt.encode_1363
  rw [if_neg (not_lt.mpr h)]
  rfl

theorem encrypt_of_lt (rsa : RSA_PublicKey) (msg : SecureVector) (rng : RandomNumberGenerator)
    (h : BigInt.decode msg < rsa.n) :
    (RSA_Public_Operation.new rsa).encrypt msg rng
      = .ok (List.replicate
            (BigInt.bytes rsa.n - BigInt.bytes (BigInt.decode msg ^ rsa.e.toNat % rsa.n))
            (0 : byte)
          ++ BigInt.encode (BigInt.decode msg ^ rsa.e.toNat % rsa.n)) := by
  have h0 := decode_nonneg msg
  have hnpos : 0 < rsa.n := lt_of_le_of_lt h0 h
  have hle : BigInt.bytes (BigInt.decode msg ^ rsa.e.toNat % rsa.n) ≤ BigInt.bytes rsa.n :=
    bytes_mono _ _ (natAbs_le_of_nonneg_of_lt _ _ (Int.emod_nonneg _ hnpos.ne')
      (Int.emod_lt_of_pos _ hnpos))
  unfold RSA_Public_Operation.encrypt
  dsimp only
  rw [public_op_of_lt rsa _ h0 h]
  show BigInt.encode_1363 _ (BigInt.bytes rsa.n) = _
  rw [encode_1363_of_le _ _ hle]

theorem verify_mr_of_lt (rsa : RSA_PublicKey) (msg : SecureVector)
    (h : BigInt.decode msg < rsa.n) :
    (RSA_Public_Operation.new rsa).verify_mr msg
      = .ok (BigInt.encode (BigInt.decode msg ^ rsa.e.toNat % rsa.n)) := by
  unfold RSA_Public_Operation.verify_mr
  dsimp only
  rw [public_op_of_lt rsa _ (decode_nonneg msg) h]
  rfl


/-! ## Key validation lemmas -/

/-- C1: round trip.  For every valid key and every `m` with `0 ≤ m < N`, the
private operation applied to the result of the public operation returns `m`,
and the public operation applied to the result of the private operation
returns `m`. -/
theorem round_trip (rsa : RSA_PrivateKey) (hv : rsa.Valid) (m : BigInt)
    (h0 : 0 ≤ m) (h1 : m < rsa.n) :
    ((RSA_Public_Operation.new rsa.toPublic).public_op m
        >>= (RSA_Private_Operation.new rsa).private_op) = .ok m ∧
    ((RSA_Private_Operation.new rsa).private_op m
        >>= (RSA_Public_Operation.new rsa.toPublic).public_op) = .ok m := by
  obtain ⟨P, Q, E, D, hp, hq, he, hd, hn, hP, hQ, hP3, hQ3, hPQ, hedP, hedQ, hd1, hd2⟩ :=
    hv.nat_form
  have hnpos : 0 < rsa.n := lt_of_le_of_lt h0 h1
  have hm1 : m < (P : ℤ) * Q := by
    rw [← hn]
    exact h1
  have hdeP : D * E ≡ 1 [MOD P - 1] := by
    rw [mul_comm]
    exact hedP
  have hdeQ : D * E ≡ 1 [MOD Q - 1] := by
    rw [mul_comm]
    exact hedQ
  constructor
  · rw [public_op_of_lt rsa.toPublic m h0 h1]
    show (RSA_Private_Operation.new rsa).private_op (m ^ rsa.e.toNat % rsa.n) = .ok m
    rw [private_op_value rsa hv _ (Int.emod_nonneg _ hnpos.ne') (Int.emod_lt_of_pos _ hnpos)]
    rw [he, hd, hn, Int.toNat_natCast, Int.toNat_natCast,
      pow_pow_mod_inverse P Q E D hP hQ hPQ hP3 hQ3 hedP hedQ m h0 hm1]
  · rw [private_op_value rsa hv m h0 h1]
    show (RSA_Public_Operation.new rsa.toPublic).public_op (m ^ rsa.d.toNat % rsa.n) = .ok m
    rw [public_op_of_lt rsa.toPublic _ (Int.emod_nonneg _ hnpos.ne')
      (Int.emod_lt_of_pos _ hnpos)]
    show Except.ok ((m ^ rsa.d.toNat % rsa.n) ^ rsa.e.toNat % rsa.n) = .ok m
    rw [he, hd, hn, Int.toNat_natCast, Int.toNat_natCast,
      pow_pow_mod_inverse P Q D E hP hQ hPQ hP3 hQ3 hdeP hdeQ m h0 hm1]

/-- Witness of C1 on the toy key at `m = 65`. -/
theorem round_trip_witness :
    toyKey.Valid ∧ (0 : BigInt) ≤ 65 ∧ (65 : BigInt) < toyKey.n ∧
    ((RSA_Public_Operation.new toyKey.toPublic).public_op 65
        >>= (RSA_Private_Operation.new toyKey).private_op) = .ok 65 ∧
    ((RSA_Private_Operation.new toyKey).private_op 65
        >>= (RSA_Public_Operation.new toyKey.toPublic).public_op) = .ok 65 :=
  ⟨toyKey_valid, by decide, by decide, round_trip toyKey toyKey_valid 65 (by decide) (by decide)⟩

/-- C2: bounds.  For every key with modulus `N ≥ 1` and every non-negative
`m`, the public operation fails with `Invalid_Argument` if and only if
`m ≥ N` (and then it fails in no other way either); in particular it fails at
`N` and succeeds at `N − 1`. -/
theorem public_op_bounds (rsa : RSA_PublicKey) (m : BigInt) (hn : 1 ≤ rsa.n) (hm : 0 ≤ m) :
    ((∃ what, (RSA_Public_Operation.new rsa).public_op m
        = .error (Exception.Invalid_Argument what)) ↔ rsa.n ≤ m) ∧
    ((∃ ex, (RSA_Public_Operation.new rsa).public_op m = .error ex) ↔ ¬ m < rsa.n) ∧
    (RSA_Public_Operation.new rsa).public_op rsa.n
      = .error (Exception.Invalid_Argument "RSA public op - input is too large") ∧
    (∃ r, (RSA_Public_Operation.new rsa).public_op (rsa.n - 1) = .ok r) := by
  refine ⟨⟨?_, ?_⟩, ⟨?_, ?_⟩, public_op_of_ge rsa rsa.n le_rfl, ?_⟩
  · rintro ⟨what, hw⟩
    by_contra hlt
    rw [public_op_of_lt rsa m hm (not_le.mp hlt)] at hw
    exact absurd hw (by simp)
  · intro hge
    exact ⟨_, public_op_of_ge rsa m hge⟩
  · rintro ⟨ex, hex⟩ hlt
    rw [public_op_of_lt rsa m hm hlt] at hex
    exact absurd hex (by simp)
  · intro hge
    exact ⟨_, public_op_of_ge rsa m (not_lt.mp hge)⟩
  · exact ⟨_, public_op_of_lt rsa (rsa.n - 1) (sub_nonneg.mpr hn) (sub_one_lt rsa.n)⟩

/-- Witness of C2 on the toy key at `m = 3233 = N`. -/
theorem public_op_bounds_witness :
    (1 : BigInt) ≤ toyKey.toPublic.n ∧ (0 : BigInt) ≤ 3233 ∧
    ((∃ what, (RSA_Public_Operation.new toyKey.toPublic).public_op 3233
        = .error (Exception.Invalid_Argument what)) ↔ toyKey.toPublic.n ≤ 3233) :=
  ⟨by decide, by decide, (public_op_bounds toyKey.toPublic 3233 (by decide) (by decide)).1⟩

/-- C3: for every key `(N, E)` and every `m` with `0 ≤ m < N`, the public
operation returns exactly `m^E mod N`, which is the value of the cached
exponentiator built from `(E, N)` applied to `m`. -/
theorem public_op_value (N : BigInt) (E : ℕ) (m : BigInt) (h0 : 0 ≤ m) (h1 : m < N) :
    (RSA_Public_Operation.new { n := N, e := (E : ℤ) }).public_op m = .ok (m ^ E % N) ∧
    (RSA_Public_Operation.new { n := N, e := (E : ℤ) }).powermod_e_n.apply m
      = .ok (m ^ E % N) ∧
    (RSA_Public_Operation.new { n := N, e := (E : ℤ) }).powermod_e_n
      = { exponent := (E : ℤ), modulus := N } := by
  refine ⟨?_, ?_, rfl⟩
  · rw [public_op_of_lt _ m h0 h1]
    simp
  · rw [apply_of_nonneg _ m h0]
    simp [RSA_Public_Operation.new, RSA_PublicKey.get_e, RSA_PublicKey.get_n]

/-- Witness of C3 at `N = 3233`, `E = 17`, `m = 65`. -/
theorem public_op_value_witness :
    (0 : BigInt) ≤ 65 ∧ (65 : BigInt) < 3233 ∧
    (RSA_Public_Operation.new { n := 3233, e := ((17 : ℕ) : ℤ) }).public_op 65
      = .ok (65 ^ 17 % 3233) :=
  ⟨by decide, by decide, (public_op_value 3233 17 65 (by decide) (by decide)).1⟩

/-- C4: CRT equivalence.  For every valid key and every `m` with `0 ≤ m < N`,
the private operation returns the CRT value `j2 + h·Q` with
`j1 = m^D1 mod P`, `j2 = m^D2 mod Q`, `h = ((j1 − j2)·QInv) mod P`, and this
value equals the direct computation `m^D mod N`. -/
theorem crt_equivalence (rsa : RSA_PrivateKey) (hv : rsa.Valid) (m : BigInt)
    (h0 : 0 ≤ m) (h1 : m < rsa.n) :
    (RSA_Private_Operation.new rsa).private_op m
      = .ok (m ^ rsa.d2.toNat % rsa.q
          + ((m ^ rsa.d1.toNat % rsa.p - m ^ rsa.d2.toNat % rsa.q) * rsa.c % rsa.p) * rsa.q) ∧
    m ^ rsa.d2.toNat % rsa.q
        + ((m ^ rsa.d1.toNat % rsa.p - m ^ rsa.d2.toNat % rsa.q) * rsa.c % rsa.p) * rsa.q
      = m ^ rsa.d.toNat % rsa.n := by
  have hval := private_op_value rsa hv m h0 h1
  have hcrt : (RSA_Private_Operation.new rsa).private_op m
      = .ok (m ^ rsa.d2.toNat % rsa.q
          + ((m ^ rsa.d1.toNat % rsa.p - m ^ rsa.d2.toNat % rsa.q) * rsa.c % rsa.p)
            * rsa.q) := by
    unfold RSA_Private_Operation.private_op
    rw [if_neg (by simpa [RSA_Private_Operation.new] using h1)]
    rw [apply_of_nonneg _ m h0, apply_of_nonneg _ m h0]
    rfl
  refine ⟨hcrt, ?_⟩
  rw [hcrt] at hval
  exact Except.ok.inj hval

/-- Witness of C4 on the toy key at `m = 2790`. -/
theorem crt_equivalence_witness :
    toyKey.Valid ∧ (0 : BigInt) ≤ 2790 ∧ (2790 : BigInt) < toyKey.n ∧
    (RSA_Private_Operation.new toyKey).private_op 2790
      = .ok (2790 ^ toyKey.d.toNat % toyKey.n) :=
  ⟨toyKey_valid, by decide, by decide,
    ((crt_equivalence toyKey toyKey_valid 2790 (by decide) (by decide)).2 ▸
      (crt_equivalence toyKey toyKey_valid 2790 (by decide) (by decide)).1)⟩

/-- C5: concrete vector.  With `P = 61`, `Q = 53`, `N = 3233`, `E = 17`,
`D = 2753`, `D1 = D mod 60`, `D2 = D mod 52` and `QInv = 53⁻¹ mod 61 = 38`, the
public operation maps `65` to `2790` and the private operation maps `2790`
to `65`. -/
theorem concrete_vector :
    toyKey = { n := 3233, e := 17, d := 2753, p := 61, q := 53,
               d1 := 2753 % 60, d2 := 2753 % 52, c := 38 } ∧
    (38 * 53 : ℤ) % 61 = 1 ∧
    (RSA_Public_Operation.new toyKey.toPublic).public_op 65 = .ok 2790 ∧
    (RSA_Private_Operation.new toyKey).private_op 2790 = .ok 65 := by
  decide

/-! ## Octet buffers in and out -/

/-- C6: byte codec length.  For every key and every input buffer whose
big-endian value is below `N`, `encrypt` returns a buffer of exactly
`L = bytes(N)` octets: the encoding of the result, left-padded with zero
octets, also when the result needs fewer than `L` octets. -/
theorem encrypt_length (rsa : RSA_PublicKey) (msg : SecureVector)
    (rng : RandomNumberGenerator) (h : BigInt.decode msg < rsa.n) :
    ∃ out, (RSA_Public_Operation.new rsa).encrypt msg rng = .ok out ∧
      out.length = BigInt.bytes rsa.n ∧
      out = List.replicate
            (BigInt.bytes rsa.n - BigInt.bytes (BigInt.decode msg ^ rsa.e.toNat % rsa.n))
            (0 : byte)
          ++ BigInt.encode (BigInt.decode msg ^ rsa.e.toNat % rsa.n) := by
  have h0 := decode_nonneg msg
  have hnpos : 0 < rsa.n := lt_of_le_of_lt h0 h
  have hle : BigInt.bytes (BigInt.decode msg ^ rsa.e.toNat % rsa.n) ≤ BigInt.bytes rsa.n :=
    bytes_mono _ _ (natAbs_le_of_nonneg_of_lt _ _ (Int.emod_nonneg _ hnpos.ne')
      (Int.emod_lt_of_pos _ hnpos))
  refine ⟨_, encrypt_of_lt rsa msg rng h, ?_, rfl⟩
  rw [List.length_append, List.length_replicate, encode_length]
  omega

/-- Witness of C6 on the toy key: the result `1` is padded to two octets. -/
theorem encrypt_length_witness :
    BigInt.decode [1] < toyKey.toPublic.n ∧
    ∃ out, (RSA_Public_Operation.new toyKey.toPublic).encrypt [1] ⟨[]⟩ = .ok out ∧
      out.length = BigInt.bytes toyKey.toPublic.n ∧
      out = List.replicate
            (BigInt.bytes toyKey.toPublic.n
              - BigInt.bytes (BigInt.decode [1] ^ toyKey.toPublic.e.toNat % toyKey.toPublic.n))
            (0 : byte)
          ++ BigInt.encode (BigInt.decode [1] ^ toyKey.toPublic.e.toNat % toyKey.toPublic.n) :=
  ⟨by decide, encrypt_length toyKey.toPublic [1] ⟨[]⟩ (by decide)⟩

/-- C7, as stated, fails: on the toy key (`L = 2`) the buffer `[1]` has value
`1 < N`, and `verify_mr` returns the one-octet buffer `[1]`, not two octets. -/
theorem verify_mr_length_counterexample :
    BigInt.decode [1] < toyKey.toPublic.n ∧
    BigInt.bytes toyKey.toPublic.n = 2 ∧
    (RSA_Public_Operation.new toyKey.toPublic).verify_mr [1] = .ok [1] ∧
    (RSA_Public_Operation.new toyKey.toPublic).encrypt [1] ⟨[]⟩ = .ok [0, 1] ∧
    ¬ ∃ out, (RSA_Public_Operation.new toyKey.toPublic).verify_mr [1] = .ok out ∧
        out.length = BigInt.bytes toyKey.toPublic.n := by
  refine ⟨by decide, by decide, by decide, by decide, ?_⟩
  rintro ⟨out, hout, hlen⟩
  have hval : (RSA_Public_Operation.new toyKey.toPublic).verify_mr [1] = .ok [1] := by decide
  rw [hval] at hout
  have hout' := Except.ok.inj hout
  subst hout'
  revert hlen
  decide

/-- C7, amended: for every key and every input buffer whose big-endian value
is below `N`, `verify_mr` returns the big-endian encoding of the result
without padding: its length is the byte length of the result, which is at
most `L = bytes(N)`; `encrypt` returns that same buffer left-padded with zero
octets to exactly `L`. -/
theorem verify_mr_length (rsa : RSA_PublicKey) (msg : SecureVector)
    (rng : RandomNumberGenerator) (h : BigInt.decode msg < rsa.n) :
    ∃ out, (RSA_Public_Operation.new rsa).verify_mr msg = .ok out ∧
      out = BigInt.encode (BigInt.decode msg ^ rsa.e.toNat % rsa.n) ∧
      out.length = BigInt.bytes (BigInt.decode msg ^ rsa.e.toNat % rsa.n) ∧
      out.length ≤ BigInt.bytes rsa.n ∧
      (RSA_Public_Operation.new rsa).encrypt msg rng
        = .ok (List.replicate (BigInt.bytes rsa.n - out.length) (0 : byte) ++ out) := by
  have h0 := decode_nonneg msg
  have hnpos : 0 < rsa.n := lt_of_le_of_lt h0 h
  have hle : BigInt.bytes (BigInt.decode msg ^ rsa.e.toNat % rsa.n) ≤ BigInt.bytes rsa.n :=
    bytes_mono _ _ (natAbs_le_of_nonneg_of_lt _ _ (Int.emod_nonneg _ hnpos.ne')
      (Int.emod_lt_of_pos _ hnpos))
  refine ⟨_, verify_mr_of_lt rsa msg h, rfl, encode_length _, ?_, ?_⟩
  · rw [encode_length]
    exact hle
  · rw [encode_length]
    exact encrypt_of_lt rsa msg rng h

/-- Witness of the amended C7 on the toy key at the buffer `[1]`. -/
theorem verify_mr_length_witness :
    BigInt.decode [1] < toyKey.toPublic.n ∧
    ∃ out, (RSA_Public_Operation.new toyKey.toPublic).verify_mr [1] = .ok out ∧
      out = BigInt.encode (BigInt.decode [1] ^ toyKey.toPublic.e.toNat % toyKey.toPublic.n) ∧
      out.length
        = BigInt.bytes (BigInt.decode [1] ^ toyKey.toPublic.e.toNat % toyKey.toPublic.n) ∧
      out.length ≤ BigInt.bytes toyKey.toPublic.n ∧
      (RSA_Public_Operation.new toyKey.toPublic).encrypt [1] ⟨[]⟩
        = .ok (List.replicate (BigInt.bytes toyKey.toPublic.n - out.length) (0 : byte) ++ out) :=
  ⟨by decide, verify_mr_length toyKey.toPublic [1] ⟨[]⟩ (by decide)⟩

/-! ## Input size -/

/-- C8: `max_input_bits` of both operations is `bits(N) − 1` (the bit length
being a 32-bit quantity), and it is a safe input size: for every modulus
`N ≥ 1` and every non-negative `m` of bit length at most `max_input_bits`,
`m < N` holds and the public operation succeeds. -/
theorem max_input_bits_safe (rsa : RSA_PrivateKey) (m : BigInt) (hn : 1 ≤ rsa.n)
    (hm : 0 ≤ m)
    (hbits : BigInt.bits m ≤ (RSA_Public_Operation.new rsa.toPublic).max_input_bits) :
    (BigInt.bits rsa.n < 2 ^ 32 →
      (RSA_Public_Operation.new rsa.toPublic).max_input_bits = BigInt.bits rsa.n - 1 ∧
      (RSA_Private_Operation.new rsa).max_input_bits = BigInt.bits rsa.n - 1) ∧
    (RSA_Private_Operation.new rsa).max_input_bits
      = (RSA_Public_Operation.new rsa.toPublic).max_input_bits ∧
    m < rsa.n ∧
    (RSA_Public_Operation.new rsa.toPublic).public_op m = .ok (m ^ rsa.e.toNat % rsa.n) := by
  have hne : rsa.n ≠ 0 := by
    intro h0
    rw [h0] at hn
    exact absurd hn (by decide)
  have hpos := bits_pos rsa.n hne
  have hlt : m < rsa.n := by
    have hle : BigInt.bits m ≤ BigInt.bits rsa.n - 1 :=
      le_trans hbits (u32_pred_le _ hpos)
    have h1 : m.natAbs < 2 ^ (BigInt.bits rsa.n - 1) := (bits_le_iff m _).mp hle
    have h2 : m.natAbs < (rsa.n).natAbs := lt_of_lt_of_le h1 (two_pow_pred_bits_le rsa.n hne)
    have hn0 : (0 : ℤ) ≤ rsa.n := le_trans (by decide) hn
    calc m = ((m.natAbs : ℕ) : ℤ) := (Int.natAbs_of_nonneg hm).symm
      _ < ((rsa.n.natAbs : ℕ) : ℤ) := Int.ofNat_lt.mpr h2
      _ = rsa.n := Int.natAbs_of_nonneg hn0
  refine ⟨fun h32 => ⟨u32_pred_eq _ hpos h32, u32_pred_eq _ hpos h32⟩, rfl, hlt, ?_⟩
  exact public_op_of_lt rsa.toPublic m hm hlt

/-- Witness of C8 on the toy key (`bits(N) = 12`) at `m = 2047`, the largest
value of 11 bits. -/
theorem max_input_bits_safe_witness :
    (1 : BigInt) ≤ toyKey.n ∧ (0 : BigInt) ≤ 2047 ∧
    BigInt.bits 2047 ≤ (RSA_Public_Operation.new toyKey.toPublic).max_input_bits ∧
    BigInt.bits toyKey.n < 2 ^ 32 ∧
    (RSA_Public_Operation.new toyKey.toPublic).max_input_bits = BigInt.bits toyKey.n - 1 ∧
    (2047 : BigInt) < toyKey.n :=
  ⟨by decide, by decide, by decide, by decide,
    ((max_input_bits_safe toyKey 2047 (by decide) (by decide) (by decide)).1 (by decide)).1,
    (max_input_bits_safe toyKey 2047 (by decide) (by decide) (by decide)).2.2.1⟩

/-! ## Key validation -/

theorem crt_range (P Q c j1 j2 : ℤ) (hP : 1 ≤ P) (h20 : 0 ≤ j2) (h21 : j2 < Q) :
    0 ≤ (j1 - j2) * c % P ∧ (j1 - j2) * c % P < P ∧
    0 ≤ j2 + ((j1 - j2) * c % P) * Q ∧ j2 + ((j1 - j2) * c % P) * Q < P * Q := by
  have hPpos : 0 < P := lt_of_lt_of_le zero_lt_one hP
  have hQpos : 0 < Q := lt_of_le_of_lt h20 h21
  have hh0 : 0 ≤ (j1 - j2) * c % P := Int.emod_nonneg _ hPpos.ne'
  have hh1 : (j1 - j2) * c % P < P := Int.emod_lt_of_pos _ hPpos
  refine ⟨hh0, hh1, ?_, ?_⟩
  · have := mul_nonneg hh0 hQpos.le
    linarith
  · nlinarith

theorem crt_congr (P Q c j1 j2 : ℤ) (hc : c * Q ≡ 1 [ZMOD P]) :
    j2 + ((j1 - j2) * c % P) * Q ≡ j1 [ZMOD P] ∧
    j2 + ((j1 - j2) * c % P) * Q ≡ j2 [ZMOD Q] := by
  constructor
  · have e1 : (j1 - j2) * c % P ≡ (j1 - j2) * c [ZMOD P] := Int.mod_modEq _ _
    have e2 : j2 + ((j1 - j2) * c % P) * Q ≡ j2 + (j1 - j2) * c * Q [ZMOD P] :=
      Int.ModEq.add_left _ (Int.ModEq.mul_right _ e1)
    have e3 : (j1 - j2) * c * Q ≡ (j1 - j2) * 1 [ZMOD P] := by
      rw [mul_assoc]
      exact Int.ModEq.mul_left _ hc
    have e4 : j2 + (j1 - j2) * c * Q ≡ j2 + (j1 - j2) * 1 [ZMOD P] :=
      Int.ModEq.add_left _ e3
    have e5 : j2 + (j1 - j2) * 1 = j1 := by ring
    rw [e5] at e4
    exact e2.trans e4
  · have e1 : j2 + ((j1 - j2) * c % P) * Q ≡ j2 + ((j1 - j2) * c % P) * 0 [ZMOD Q] :=
      Int.ModEq.add_left _ (Int.ModEq.mul_left _ (by simp [Int.ModEq]))
    simpa using e1

theorem private_op_eq_ok (rsa : RSA_PrivateKey) (m r : BigInt)
    (h : (RSA_Private_Operation.new rsa).private_op m = .ok r) :
    0 ≤ m ∧ m < rsa.n ∧
    r = m ^ rsa.d2.toNat % rsa.q
          + ((m ^ rsa.d1.toNat % rsa.p - m ^ rsa.d2.toNat % rsa.q) * rsa.c % rsa.p) * rsa.q := by
  by_cases hge : rsa.n ≤ m
  · rw [private_op_of_ge rsa m hge] at h
    exact absurd h (by simp)
  · have hlt : m < rsa.n := not_le.mp hge
    by_cases hneg : m < 0
    · exfalso
      unfold RSA_Private_Operation.private_op at h
      rw [if_neg (by simpa [RSA_Private_Operation.new] using hlt)] at h
      unfold Fixed_Exponent_Power_Mod.apply at h
      rw [if_pos hneg] at h
      exact absurd h (by simp [bind, Except.bind, throw, throwThe, MonadExceptOf.throw])
    · have h0 : 0 ≤ m := not_lt.mp hneg
      refine ⟨h0, hlt, ?_⟩
      unfold RSA_Private_Operation.private_op at h
      rw [if_neg (by simpa [RSA_Private_Operation.new] using hlt)] at h
      rw [apply_of_nonneg _ m h0, apply_of_nonneg _ m h0] at h
      exact (Except.ok.inj h).symm

theorem emod_eq_of_modEq_of_range (x j P : ℤ) (h : x ≡ j [ZMOD P]) (h0 : 0 ≤ j) (h1 : j < P) :
    x % P = j := by
  have := h
  unfold Int.ModEq at this
  rw [this]
  exact Int.emod_eq_of_lt h0 h1

theorem private_op_recombines (rsa : RSA_PrivateKey) (m a b : BigInt) (h1 : m < rsa.n)
    (ha : (RSA_Private_Operation.new rsa).powermod_d1_p.apply m = .ok a)
    (hb : (RSA_Private_Operation.new rsa).powermod_d2_q.apply m = .ok b) :
    (RSA_Private_Operation.new rsa).private_op m
      = .ok (b + (RSA_Private_Operation.new rsa).mod_p.reduce ((a - b) * rsa.c) * rsa.q) := by
  unfold RSA_Private_Operation.private_op
  rw [if_neg (by simpa [RSA_Private_Operation.new] using h1)]
  rw [ha, hb]
  rfl

/-- C12: CRT recombination.  For all `P, Q ≥ 1` with `QInv·Q ≡ 1 (mod P)`, all
`j1` in `[0, P)` and `j2` in `[0, Q)`, also when `j1 < j2`: the reducer's
`h = ((j1 − j2)·QInv) mod P` lies in `[0, P)`, and `j2 + h·Q` lies in
`[0, P·Q)` and is congruent to `j1` modulo `P` and to `j2` modulo `Q`; the
private operation computes exactly this value when its two exponentiations
yield `j1` and `j2`, as they do at a suitable input once `D1 = D2 = 1`.  For
the key itself and every `m` with `0 ≤ m < N = P·Q` the private operation
returns the recombination `r` of the two exponentiation results `a`, `b`, with
`r ≡ a (mod P)`, `r ≡ b (mod Q)` and `0 ≤ r < N`; hence it never returns a
value `≥ N`. -/
theorem crt_recombination (rsa : RSA_PrivateKey) (j1 j2 : BigInt)
    (hP : 1 ≤ rsa.p) (hQ : 1 ≤ rsa.q) (hn : rsa.n = rsa.p * rsa.q)
    (hc : rsa.c * rsa.q ≡ 1 [ZMOD rsa.p])
    (h10 : 0 ≤ j1) (h11 : j1 < rsa.p) (h20 : 0 ≤ j2) (h21 : j2 < rsa.q) :
    (0 ≤ (RSA_Private_Operation.new rsa).mod_p.reduce ((j1 - j2) * rsa.c) ∧
      (RSA_Private_Operation.new rsa).mod_p.reduce ((j1 - j2) * rsa.c) < rsa.p) ∧
    (0 ≤ j2 + (RSA_Private_Operation.new rsa).mod_p.reduce ((j1 - j2) * rsa.c) * rsa.q ∧
      j2 + (RSA_Private_Operation.new rsa).mod_p.reduce ((j1 - j2) * rsa.c) * rsa.q
        < rsa.p * rsa.q) ∧
    j2 + (RSA_Private_Operation.new rsa).mod_p.reduce ((j1 - j2) * rsa.c) * rsa.q
      ≡ j1 [ZMOD rsa.p] ∧
    j2 + (RSA_Private_Operation.new rsa).mod_p.reduce ((j1 - j2) * rsa.c) * rsa.q
      ≡ j2 [ZMOD rsa.q] ∧
    (∃ m : BigInt, 0 ≤ m ∧ m < rsa.n ∧
      (RSA_Private_Operation.new { rsa with d1 := 1, d2 := 1 }).powermod_d1_p.apply m
        = .ok j1 ∧
      (RSA_Private_Operation.new { rsa with d1 := 1, d2 := 1 }).powermod_d2_q.apply m
        = .ok j2 ∧
      (RSA_Private_Operation.new { rsa with d1 := 1, d2 := 1 }).private_op m
        = .ok (j2
            + (RSA_Private_Operation.new rsa).mod_p.reduce ((j1 - j2) * rsa.c) * rsa.q)) ∧
    (∀ m, 0 ≤ m → m < rsa.n → ∃ a b r,
      (RSA_Private_Operation.new rsa).powermod_d1_p.apply m = .ok a ∧
      (RSA_Private_Operation.new rsa).powermod_d2_q.apply m = .ok b ∧
      (RSA_Private_Operation.new rsa).private_op m = .ok r ∧
      r = b + (RSA_Private_Operation.new rsa).mod_p.reduce ((a - b) * rsa.c) * rsa.q ∧
      0 ≤ r ∧ r < rsa.n ∧ r ≡ a [ZMOD rsa.p] ∧ r ≡ b [ZMOD rsa.q]) ∧
    (∀ m r, (RSA_Private_Operation.new rsa).private_op m = .ok r → 0 ≤ r ∧ r < rsa.n) := by
  have hred : ∀ x : BigInt, (RSA_Private_Operation.new rsa).mod_p.reduce x = x % rsa.p :=
    fun _ => rfl
  have hPpos : 0 < rsa.p := lt_of_lt_of_le zero_lt_one hP
  have hQpos : 0 < rsa.q := lt_of_lt_of_le zero_lt_one hQ
  have hrange : ∀ m : BigInt, 0 ≤ m ^ rsa.d2.toNat % rsa.q
        + ((m ^ rsa.d1.toNat % rsa.p - m ^ rsa.d2.toNat % rsa.q) * rsa.c % rsa.p) * rsa.q ∧
      m ^ rsa.d2.toNat % rsa.q
        + ((m ^ rsa.d1.toNat % rsa.p - m ^ rsa.d2.toNat % rsa.q) * rsa.c % rsa.p) * rsa.q
        < rsa.n := by
    intro m
    rw [hn]
    exact (crt_range rsa.p rsa.q rsa.c _ _ hP (Int.emod_nonneg _ hQpos.ne')
      (Int.emod_lt_of_pos _ hQpos)).2.2
  obtain ⟨r1, r2, r3, r4⟩ := crt_range rsa.p rsa.q rsa.c j1 j2 hP h20 h21
  obtain ⟨c1, c2⟩ := crt_congr rsa.p rsa.q rsa.c j1 j2 hc
  rw [hred]
  refine ⟨⟨r1, r2⟩, ⟨r3, r4⟩, c1, c2, ?_, ?_, ?_⟩
  · have hlt : j2 + (j1 - j2) * rsa.c % rsa.p * rsa.q < rsa.n := by
      rw [hn]
      exact r4
    have ha : (RSA_Private_Operation.new { rsa with d1 := 1, d2 := 1 }).powermod_d1_p.apply
        (j2 + (j1 - j2) * rsa.c % rsa.p * rsa.q) = .ok j1 := by
      rw [apply_of_nonneg _ _ r3]
      show Except.ok ((j2 + (j1 - j2) * rsa.c % rsa.p * rsa.q) ^ 1 % rsa.p) = .ok j1
      rw [pow_one, emod_eq_of_modEq_of_range _ j1 rsa.p c1 h10 h11]
    have hb : (RSA_Private_Operation.new { rsa with d1 := 1, d2 := 1 }).powermod_d2_q.apply
        (j2 + (j1 - j2) * rsa.c % rsa.p * rsa.q) = .ok j2 := by
      rw [apply_of_nonneg _ _ r3]
      show Except.ok ((j2 + (j1 - j2) * rsa.c % rsa.p * rsa.q) ^ 1 % rsa.q) = .ok j2
      rw [pow_one, emod_eq_of_modEq_of_range _ j2 rsa.q c2 h20 h21]
    exact ⟨_, r3, hlt, ha, hb,
      private_op_recombines { rsa with d1 := 1, d2 := 1 } _ j1 j2 hlt ha hb⟩
  · intro m h0 h1
    have hrec := private_op_recombines rsa m _ _ h1 (apply_of_nonneg _ m h0)
      (apply_of_nonneg _ m h0)
    obtain ⟨g1, g2⟩ := crt_congr rsa.p rsa.q rsa.c (m ^ rsa.d1.toNat % rsa.p)
      (m ^ rsa.d2.toNat % rsa.q) hc
    exact ⟨_, _, _, apply_of_nonneg _ m h0, apply_of_nonneg _ m h0, hrec, rfl,
      (hrange m).1, (hrange m).2, g1, g2⟩
  · intro m r hr
    obtain ⟨_, _, hval⟩ := private_op_eq_ok rsa m r hr
    rw [hval]
    exact hrange m

/-- Witness of C12 on the toy key with `j1 = 3 < j2 = 50`, where `j1 − j2` is
negative: the recombined value is `2382`, which the private operation with
`D1 = D2 = 1` returns at the input `2382`. -/
theorem crt_recombination_witness :
    (1 : BigInt) ≤ toyKey.p ∧ (1 : BigInt) ≤ toyKey.q ∧ toyKey.n = toyKey.p * toyKey.q ∧
    toyKey.c * toyKey.q ≡ 1 [ZMOD toyKey.p] ∧
    (0 : BigInt) ≤ 3 ∧ (3 : BigInt) < toyKey.p ∧ (0 : BigInt) ≤ 50 ∧ (50 : BigInt) < toyKey.q ∧
    (3 : BigInt) - 50 < 0 ∧
    (50 : BigInt) + (RSA_Private_Operation.new toyKey).mod_p.reduce ((3 - 50) * toyKey.c)
      * toyKey.q = 2382 ∧
    (RSA_Private_Operation.new { toyKey with d1 := 1, d2 := 1 }).private_op 2382 = .ok 2382 ∧
    (50 : BigInt) + (RSA_Private_Operation.new toyKey).mod_p.reduce ((3 - 50) * toyKey.c)
      * toyKey.q ≡ 3 [ZMOD toyKey.p] :=
  ⟨by decide, by decide, by decide, by decide, by decide, by decide, by decide, by decide,
    by decide, by decide, by decide,
    (crt_recombination toyKey 3 50 (by decide) (by decide) (by decide) (by decide) (by decide)
      (by decide) (by decide) (by decide)).2.2.1⟩

/-! ## Values of the octet codec -/

theorem decode_append_singleton (buf : SecureVector) (b : byte) :
    BigInt.decode (buf ++ [b]) = BigInt.decode buf * 256 + (b.val : ℤ) := by
  unfold BigInt.decode
  rw [List.foldl_append]
  rfl

theorem foldl_decode_zeros (k : Nat) :
    (List.replicate k (0 : byte)).foldl (fun acc b => acc * 256 + (b.val : ℤ)) 0 = 0 := by
  induction k with
  | zero => rfl
  | succ k ih =>
    rw [List.replicate_succ, List.foldl_cons]
    simpa using ih

theorem decode_zeros_append (k : Nat) (buf : SecureVector) :
    BigInt.decode (List.replicate k (0 : byte) ++ buf) = BigInt.decode buf := by
  unfold BigInt.decode
  rw [List.foldl_append, foldl_decode_zeros]

theorem decode_bigEndian (len : Nat) : ∀ x : Nat,
    BigInt.decode (bigEndian len x) = ((x % 256 ^ len : ℕ) : ℤ) := by
  induction len with
  | zero =>
    intro x
    simp [bigEndian, BigInt.decode, Nat.mod_one]
  | succ k ih =>
    intro x
    unfold bigEndian
    rw [decode_append_singleton, ih]
    have hval : ((Fin.ofNat (x % 256) : byte).val : ℤ) = ((x % 256 : ℕ) : ℤ) := by
      simp [Fin.ofNat]
    rw [hval]
    have hsplit : x % 256 ^ (k + 1) = x % 256 + 256 * (x / 256 % 256 ^ k) := by
      rw [pow_succ, mul_comm (256 ^ k) 256]
      exact Nat.mod_mul
    rw [hsplit]
    push_cast
    ring

theorem natAbs_lt_pow_bytes (x : BigInt) : x.natAbs < 256 ^ BigInt.bytes x := by
  have h1 := lt_two_pow_bits x
  have h2 : 2 ^ BigInt.bits x ≤ 2 ^ (8 * BigInt.bytes x) := by
    apply Nat.pow_le_pow_right (by norm_num)
    unfold BigInt.bytes
    omega
  have h3 : (256 : ℕ) ^ BigInt.bytes x = 2 ^ (8 * BigInt.bytes x) := by
    rw [pow_mul]
    norm_num
  rw [h3]
  exact lt_of_lt_of_le h1 h2

theorem decode_encode (x : BigInt) (h : 0 ≤ x) : BigInt.decode (BigInt.encode x) = x := by
  unfold BigInt.encode
  rw [decode_bigEndian, Nat.mod_eq_of_lt (natAbs_lt_pow_bytes x)]
  exact Int.natAbs_of_nonneg h

theorem encrypt_of_ge (rsa : RSA_PublicKey) (msg : SecureVector) (rng : RandomNumberGenerator)
    (h : rsa.n ≤ BigInt.decode msg) :
    (RSA_Public_Operation.new rsa).encrypt msg rng
      = .error (Exception.Invalid_Argument "RSA public op - input is too large") := by
  unfold RSA_Public_Operation.encrypt
  dsimp only
  rw [public_op_of_ge rsa _ h]
  rfl

theorem verify_mr_of_ge (rsa : RSA_PublicKey) (msg : SecureVector)
    (h : rsa.n ≤ BigInt.decode msg) :
    (RSA_Public_Operation.new rsa).verify_mr msg
      = .error (Exception.Invalid_Argument "RSA public op - input is too large") := by
  unfold RSA_Public_Operation.verify_mr
  dsimp only
  rw [public_op_of_ge rsa _ h]
  rfl

/-- C13: byte codec value.  For every key `(N, E)` and every buffer whose
big-endian value `v` is below `N`, the big-endian value of the buffer returned
by `encrypt` is `v^E mod N`, and so is that of the buffer returned by
`verify_mr`; when `v ≥ N` both fail with `Invalid_Argument` and return no
buffer. -/
theorem codec_value (N : BigInt) (E : ℕ) (msg : SecureVector) (rng : RandomNumberGenerator) :
    (BigInt.decode msg < N →
      (∃ out, (RSA_Public_Operation.new { n := N, e := (E : ℤ) }).encrypt msg rng = .ok out ∧
        BigInt.decode out = BigInt.decode msg ^ E % N) ∧
      (∃ out, (RSA_Public_Operation.new { n := N, e := (E : ℤ) }).verify_mr msg = .ok out ∧
        BigInt.decode out = BigInt.decode msg ^ E % N)) ∧
    (N ≤ BigInt.decode msg →
      (RSA_Public_Operation.new { n := N, e := (E : ℤ) }).encrypt msg rng
        = .error (Exception.Invalid_Argument "RSA public op - input is too large") ∧
      (RSA_Public_Operation.new { n := N, e := (E : ℤ) }).verify_mr msg
        = .error (Exception.Invalid_Argument "RSA public op - input is too large")) := by
  constructor
  · intro hlt
    have h0 := decode_nonneg msg
    have hNpos : 0 < N := lt_of_le_of_lt h0 hlt
    have hr0 : 0 ≤ BigInt.decode msg ^ E % N := Int.emod_nonneg _ hNpos.ne'
    constructor
    · refine ⟨_, encrypt_of_lt { n := N, e := (E : ℤ) } msg rng hlt, ?_⟩
      rw [decode_zeros_append]
      simp only [Int.toNat_natCast]
      exact decode_encode _ hr0
    · refine ⟨_, verify_mr_of_lt { n := N, e := (E : ℤ) } msg hlt, ?_⟩
      simp only [Int.toNat_natCast]
      exact decode_encode _ hr0
  · intro hge
    exact ⟨encrypt_of_ge { n := N, e := (E : ℤ) } msg rng hge,
      verify_mr_of_ge { n := N, e := (E : ℤ) } msg hge⟩

/-- Witness of C13 at `N = 3233`, `E = 17`: the buffer `[65]` has value
`65 < N`, the buffer `[12, 161]` has value `3233 = N`. -/
theorem codec_value_witness :
    BigInt.decode [65] < 3233 ∧ (3233 : BigInt) ≤ BigInt.decode [12, 161] ∧
    (∃ out, (RSA_Public_Operation.new { n := 3233, e := ((17 : ℕ) : ℤ) }).encrypt [65] ⟨[]⟩
        = .ok out ∧ BigInt.decode out = BigInt.decode [65] ^ 17 % 3233) ∧
    (RSA_Public_Operation.new { n := 3233, e := ((17 : ℕ) : ℤ) }).verify_mr [12, 161]
      = .error (Exception.Invalid_Argument "RSA public op - input is too large") :=
  ⟨by decide, by decide,
    ((codec_value 3233 17 [65] ⟨[]⟩).1 (by decide)).1,
    ((codec_value 3233 17 [12, 161] ⟨[]⟩).2 (by decide)).2⟩

/-! ## Failures of `encrypt` -/

theorem encrypt_error_iff (rsa : RSA_PublicKey) (msg : SecureVector)
    (rng : RandomNumberGenerator) (ex : Exception)
    (h : (RSA_Public_Operation.new rsa).encrypt msg rng = .error ex) :
    ex = Exception.Invalid_Argument "RSA public op - input is too large" ∧
    rsa.n ≤ BigInt.decode msg := by
  by_cases hlt : BigInt.decode msg < rsa.n
  · rw [encrypt_of_lt rsa msg rng hlt] at h
    exact absurd h (by simp)
  · have hge : rsa.n ≤ BigInt.decode msg := not_lt.mp hlt
    rw [encrypt_of_ge rsa msg rng hge] at h
    exact ⟨(Except.error.inj h).symm, hge⟩

/-- C14: for every key with `N ≥ 1` and every `m` with `0 ≤ m < N`, the value
returned by the public operation lies in `[0, N)`, so its byte length is at
most that of `N` and `encode_1363` to `bytes(N)` octets succeeds; hence the
only failure of `encrypt` is the input-too-large error, raised exactly when the
value of the buffer is `≥ N`. -/
theorem encrypt_only_failure (rsa : RSA_PublicKey) (m : BigInt) (msg : SecureVector)
    (rng : RandomNumberGenerator) (hn : 1 ≤ rsa.n) (h0 : 0 ≤ m) (h1 : m < rsa.n) :
    (∃ r, (RSA_Public_Operation.new rsa).public_op m = .ok r ∧ 0 ≤ r ∧ r < rsa.n ∧
      BigInt.bytes r ≤ BigInt.bytes rsa.n ∧
      ∃ out, BigInt.encode_1363 r (BigInt.bytes rsa.n) = .ok out) ∧
    (∀ ex, (RSA_Public_Operation.new rsa).encrypt msg rng = .error ex →
      ex = Exception.Invalid_Argument "RSA public op - input is too large" ∧
      rsa.n ≤ BigInt.decode msg) ∧
    (BigInt.decode msg < rsa.n → ∃ out, (RSA_Public_Operation.new rsa).encrypt msg rng = .ok out) := by
  have hnpos : 0 < rsa.n := lt_of_lt_of_le zero_lt_one hn
  have hr0 : 0 ≤ m ^ rsa.e.toNat % rsa.n := Int.emod_nonneg _ hnpos.ne'
  have hr1 : m ^ rsa.e.toNat % rsa.n < rsa.n := Int.emod_lt_of_pos _ hnpos
  have hle : BigInt.bytes (m ^ rsa.e.toNat % rsa.n) ≤ BigInt.bytes rsa.n :=
    bytes_mono _ _ (natAbs_le_of_nonneg_of_lt _ _ hr0 hr1)
  refine ⟨⟨_, public_op_of_lt rsa m h0 h1, hr0, hr1, hle, _, encode_1363_of_le _ _ hle⟩, ?_, ?_⟩
  · intro ex hex
    exact encrypt_error_iff rsa msg rng ex hex
  · intro hlt
    exact ⟨_, encrypt_of_lt rsa msg rng hlt⟩

/-- Witness of C14 on the toy key at `m = 65` and the buffer `[65]`. -/
theorem encrypt_only_failure_witness :
    (1 : BigInt) ≤ toyKey.toPublic.n ∧ (0 : BigInt) ≤ 65 ∧ (65 : BigInt) < toyKey.toPublic.n ∧
    (∃ r, (RSA_Public_Operation.new toyKey.toPublic).public_op 65 = .ok r ∧ 0 ≤ r ∧
      r < toyKey.toPublic.n ∧ BigInt.bytes r ≤ BigInt.bytes toyKey.toPublic.n ∧
      ∃ out, BigInt.encode_1363 r (BigInt.bytes toyKey.toPublic.n) = .ok out) :=
  ⟨by decide, by decide, by decide,
    (encrypt_only_failure toyKey.toPublic 65 [65] ⟨[]⟩ (by decide) (by decide) (by decide)).1⟩

/-! ## Leading zero octets -/

/-- C15: `encrypt` depends on the input buffer only through its big-endian
value: any number of leading zero octets leaves the outcome unchanged, and two
buffers of equal value have equal outcomes.  So a buffer of value below `N` is
accepted however many zero octets precede it, also when that makes it longer
than `bytes(N)`, while a buffer of exactly `bytes(N)` octets whose value is
`≥ N` is rejected. -/
theorem encrypt_leading_zeros (rsa : RSA_PublicKey) (msg : SecureVector) (k : Nat)
    (rng : RandomNumberGenerator) :
    (RSA_Public_Operation.new rsa).encrypt (List.replicate k (0 : byte) ++ msg) rng
      = (RSA_Public_Operation.new rsa).encrypt msg rng ∧
    (∀ other : SecureVector, BigInt.decode other = BigInt.decode msg →
      (RSA_Public_Operation.new rsa).encrypt other rng
        = (RSA_Public_Operation.new rsa).encrypt msg rng) ∧
    (BigInt.decode msg < rsa.n →
      ∃ out, (RSA_Public_Operation.new rsa).encrypt (List.replicate k (0 : byte) ++ msg) rng
        = .ok out) ∧
    (msg.length = BigInt.bytes rsa.n → rsa.n ≤ BigInt.decode msg →
      (RSA_Public_Operation.new rsa).encrypt msg rng
        = .error (Exception.Invalid_Argument "RSA public op - input is too large")) ∧
    ((RSA_Public_Operation.new toyKey.toPublic).encrypt [0, 0, 0, 1] rng = .ok [0, 1] ∧
      BigInt.bytes toyKey.toPublic.n < ([0, 0, 0, 1] : SecureVector).length ∧
      ([12, 161] : SecureVector).length = BigInt.bytes toyKey.toPublic.n ∧
      (RSA_Public_Operation.new toyKey.toPublic).encrypt [12, 161] rng
        = .error (Exception.Invalid_Argument "RSA public op - input is too large")) := by
  have hsame : ∀ other : SecureVector, BigInt.decode other = BigInt.decode msg →
      (RSA_Public_Operation.new rsa).encrypt other rng
        = (RSA_Public_Operation.new rsa).encrypt msg rng := by
    intro other heq
    unfold RSA_Public_Operation.encrypt
    dsimp only
    rw [heq]
  have hzero := hsame _ (decode_zeros_append k msg)
  refine ⟨hzero, hsame, ?_, ?_, ?_⟩
  · intro hlt
    rw [hzero]
    exact ⟨_, encrypt_of_lt rsa msg rng hlt⟩
  · intro _ hge
    exact encrypt_of_ge rsa msg rng hge
  · refine ⟨?_, by decide, by decide, ?_⟩
    · have h : (RSA_Public_Operation.new toyKey.toPublic).encrypt [0, 0, 0, 1] ⟨[]⟩
          = .ok [0, 1] := by decide
      exact h
    · exact encrypt_of_ge toyKey.toPublic [12, 161] rng (by decide)

/-! ## Input size in 32-bit arithmetic -/

theorem bits_zero : BigInt.bits 0 = 0 := rfl

/-- C16: `max_input_bits` is `n.bits() - 1` in unsigned 32-bit arithmetic.  For
a zero modulus (bit length `0`) it wraps to `2^32 − 1`; for every modulus
`N ≥ 1` (its bit length being a 32-bit quantity) the bit length is at least `1`,
no wrap occurs and the result is `bits(N) − 1`.  With a zero modulus the public
operation rejects every input: every `m ≥ 0` is `≥ N`. -/
theorem max_input_bits_wrap (rsa : RSA_PrivateKey) :
    (rsa.n = 0 →
      (RSA_Public_Operation.new rsa.toPublic).max_input_bits = 2 ^ 32 - 1 ∧
      (RSA_Private_Operation.new rsa).max_input_bits = 2 ^ 32 - 1 ∧
      (∀ m : BigInt, 0 ≤ m → (RSA_Public_Operation.new rsa.toPublic).public_op m
        = .error (Exception.Invalid_Argument "RSA public op - input is too large")) ∧
      (∀ m : BigInt, ∃ ex, (RSA_Public_Operation.new rsa.toPublic).public_op m = .error ex)) ∧
    (1 ≤ rsa.n → BigInt.bits rsa.n < 2 ^ 32 →
      1 ≤ BigInt.bits rsa.n ∧
      (RSA_Public_Operation.new rsa.toPublic).max_input_bits = BigInt.bits rsa.n - 1 ∧
      (RSA_Private_Operation.new rsa).max_input_bits = BigInt.bits rsa.n - 1 ∧
      (RSA_Public_Operation.new rsa.toPublic).max_input_bits + 1 = BigInt.bits rsa.n) := by
  constructor
  · intro h0
    have hpub : (RSA_Public_Operation.new rsa.toPublic).max_input_bits = 2 ^ 32 - 1 := by
      show (BigInt.bits rsa.n + 2 ^ 32 - 1) % 2 ^ 32 = 2 ^ 32 - 1
      rw [h0, bits_zero]
      norm_num
    have hpriv : (RSA_Private_Operation.new rsa).max_input_bits = 2 ^ 32 - 1 := hpub
    refine ⟨hpub, hpriv, ?_, ?_⟩
    · intro m hm
      exact public_op_of_ge rsa.toPublic m (by
        show rsa.n ≤ m
        rw [h0]
        exact hm)
    · intro m
      by_cases hm : 0 ≤ m
      · exact ⟨_, public_op_of_ge rsa.toPublic m (by
          show rsa.n ≤ m
          rw [h0]
          exact hm)⟩
      · refine ⟨Exception.Invalid_Argument "Power_Mod: base must be non-negative", ?_⟩
        have hlt : m < 0 := not_le.mp hm
        unfold RSA_Public_Operation.public_op
        rw [if_neg (by
          show ¬ m ≥ rsa.n
          rw [h0]
          exact hm)]
        unfold Fixed_Exponent_Power_Mod.apply
        rw [if_pos hlt]
        rfl
  · intro hn h32
    have hne : rsa.n ≠ 0 := by
      intro h0
      rw [h0] at hn
      exact absurd hn (by decide)
    have hpos := bits_pos rsa.n hne
    have hpub : (RSA_Public_Operation.new rsa.toPublic).max_input_bits
        = BigInt.bits rsa.n - 1 := u32_pred_eq _ hpos h32
    refine ⟨hpos, hpub, u32_pred_eq _ hpos h32, ?_⟩
    rw [hpub]
    omega

/-- Witness of C16: the zero-modulus key wraps to `2^32 − 1` and rejects `5`;
the toy key (`bits(N) = 12`) gives `11`. -/
theorem max_input_bits_wrap_witness :
    zeroModulusKey.n = 0 ∧ (1 : BigInt) ≤ toyKey.n ∧ BigInt.bits toyKey.n < 2 ^ 32 ∧
    (RSA_Public_Operation.new zeroModulusKey.toPublic).max_input_bits = 2 ^ 32 - 1 ∧
    (RSA_Public_Operation.new toyKey.toPublic).max_input_bits = BigInt.bits toyKey.n - 1 :=
  ⟨by decide, by decide, by decide,
    ((max_input_bits_wrap zeroModulusKey).1 (by decide)).1,
    ((max_input_bits_wrap toyKey).2 (by decide) (by decide)).2.1⟩

/-! ## Key generation lemmas -/

end Botan


